import Mathlib

/-!
Verification of the Gaussian-elimination LU routine `elim_gaussiana`
(file `Labo 5/elim_gaussiana.py`).

The embedding models a dense numpy array of shape (m, n) as a function
`Mat = ℕ → ℕ → ℚ` together with the explicit shape numbers `m` (rows) and
`n` (columns); entries outside the declared shape never influence any
statement.  Rationals stand for the exact field arithmetic of the
algorithm; the Python loops become folds over `List.range' lo (hi - lo)`,
mirroring `for k in range(lo, hi)` step by step, and in-place writes
become functional updates.  A separate two-cell store model
(`elimStore`) renders the line `Ac = A.copy()` explicitly in order to
state the frame and idempotence properties.
-/

/-- Dense 2D array of exact scalars, indexed (row, column), 0-based. -/
def Mat : Type := ℕ → ℕ → ℚ

/-- In-place write `A[r][c] = v` rendered functionally. -/
def setEntry (A : Mat) (r c : ℕ) (v : ℚ) : Mat :=
  fun r2 c2 => if r2 = r ∧ c2 = c then v else A r2 c2

/-- Python `for k in range(lo, hi)` acting on a loop state. -/
def forRange {σ : Type _} (lo hi : ℕ) (f : ℕ → σ → σ) (s : σ) : σ :=
  (List.range' lo (hi - lo)).foldl (fun t k => f k t) s

theorem forRange_of_le {σ : Type _} (f : ℕ → σ → σ) (s : σ) {lo hi : ℕ}
    (h : hi ≤ lo) : forRange lo hi f s = s := by
  unfold forRange
  rw [Nat.sub_eq_zero_of_le h]
  rfl

theorem forRange_succ_hi {σ : Type _} (f : ℕ → σ → σ) (s : σ) {lo hi : ℕ}
    (h : lo ≤ hi) : forRange lo (hi + 1) f s = f hi (forRange lo hi f s) := by
  unfold forRange
  have h1 : hi + 1 - lo = (hi - lo) + 1 := by omega
  have h2 : lo + 1 * (hi - lo) = hi := by omega
  rw [h1, List.range'_concat, List.foldl_append, h2]
  rfl

/-- Induction principle for `forRange` with an index-dependent invariant. -/
theorem forRange_ind {σ : Type _} (P : ℕ → σ → Prop) (f : ℕ → σ → σ) {lo hi : ℕ}
    (hle : lo ≤ hi) (s : σ) (hbase : P lo s)
    (hstep : ∀ k t, lo ≤ k → k < hi → P k t → P (k + 1) (f k t)) :
    P hi (forRange lo hi f s) := by
  induction hi, hle using Nat.le_induction with
  | base =>
    rw [forRange_of_le f s (le_refl lo)]
    exact hbase
  | succ m hm ih =>
    rw [forRange_succ_hi f s hm]
    exact hstep m _ hm (by omega)
      (ih (fun k t hk hk2 hP => hstep k t hk (by omega) hP))

theorem forRange_congr {σ : Type _} {f g : ℕ → σ → σ} {lo hi : ℕ} (s : σ)
    (h : ∀ k t, lo ≤ k → k < hi → f k t = g k t) :
    forRange lo hi f s = forRange lo hi g s := by
  rcases le_or_lt lo hi with hle | hlt
  · induction hi, hle using Nat.le_induction with
    | base =>
      rw [forRange_of_le f s (le_refl lo), forRange_of_le g s (le_refl lo)]
    | succ m hm ih =>
      rw [forRange_succ_hi f s hm, forRange_succ_hi g s hm,
        ih (fun k t hk hk2 => h k t hk (by omega))]
      exact h m _ hm (by omega)
  · rw [forRange_of_le f s (by omega), forRange_of_le g s (by omega)]

theorem forRange_preserve {σ : Type _} (Q : σ → Prop) (f : ℕ → σ → σ)
    {lo hi : ℕ} (s : σ) (hs : Q s)
    (h : ∀ k t, lo ≤ k → k < hi → Q t → Q (f k t)) :
    Q (forRange lo hi f s) := by
  rcases le_or_lt lo hi with hle | hlt
  · exact forRange_ind (fun _ t => Q t) f hle s hs h
  · rw [forRange_of_le f s (by omega)]
    exact hs

/-- Projection of a `forRange` along a simulation between two state types. -/
theorem forRange_hom {σ τ : Type _} (proj : σ → τ) (f : ℕ → σ → σ)
    (g : ℕ → τ → τ) {lo hi : ℕ} (s : σ)
    (h : ∀ k t, lo ≤ k → k < hi → proj (f k t) = g k (proj t)) :
    proj (forRange lo hi f s) = forRange lo hi g (proj s) := by
  rcases le_or_lt lo hi with hle | hlt
  · induction hi, hle using Nat.le_induction with
    | base =>
      rw [forRange_of_le f s (le_refl lo), forRange_of_le g (proj s) (le_refl lo)]
    | succ m hm ih =>
      rw [forRange_succ_hi f s hm, forRange_succ_hi g (proj s) hm,
        ← ih (fun k t hk hk2 => h k t hk (by omega))]
      exact h m _ hm (by omega)
  · rw [forRange_of_le f s (by omega), forRange_of_le g (proj s) (by omega)]

/-- Body of the innermost loop `for k in range(i+1, n)` of `elim_gaussiana`:
`Ac[j][k] = Ac[j][k] - (multi * Ac[i][k]); cant_op += 2`.
The loop state is the pair (working matrix `Ac`, operation count `cant_op`). -/
def updateK (i j : ℕ) (multi : ℚ) (k : ℕ) (st : Mat × ℕ) : Mat × ℕ :=
  (setEntry st.1 j k (st.1 j k - multi * st.1 i k), st.2 + 2)

/-- Body of `for j in range(i+1, m)`: if `Ac[j][i] != 0`, compute
`multi = Ac[j][i] / Ac[i][i]`, run the k-loop, do `cant_op += 1`, and store
`Ac[j][i] = multi`; otherwise the row is skipped entirely. -/
def innerJ (n i : ℕ) (j : ℕ) (st : Mat × ℕ) : Mat × ℕ :=
  if st.1 j i ≠ 0 then
    (setEntry (forRange (i + 1) n (updateK i j (st.1 j i / st.1 i i)) st).1 j i
        (st.1 j i / st.1 i i),
      (forRange (i + 1) n (updateK i j (st.1 j i / st.1 i i)) st).2 + 1)
  else st

/-- Body of the outer loop `for i in range(0, n)`. -/
def outerI (m n : ℕ) (i : ℕ) (st : Mat × ℕ) : Mat × ℕ :=
  forRange (i + 1) m (innerJ n i) st

/-- The full elimination nest of `elim_gaussiana`, started on the working
copy with `cant_op = 0`; `m` is `A.shape[0]`, `n` is `A.shape[1]`. -/
def elimLoop (m n : ℕ) (A : Mat) : Mat × ℕ :=
  forRange 0 n (outerI m n) (A, 0)

/-- numpy `np.eye(n)`. -/
def eye (n : ℕ) : Mat :=
  fun r c => if r = c ∧ r < n then 1 else 0

/-- numpy `np.tril(A, -1)` on an n×n array: strictly lower part. -/
def trilm1 (n : ℕ) (A : Mat) : Mat :=
  fun r c => if r < n ∧ c < n ∧ c < r then A r c else 0

/-- numpy `np.triu(A)` on an n×n array: upper part, diagonal included. -/
def triu (n : ℕ) (A : Mat) : Mat :=
  fun r c => if r < n ∧ c < n ∧ r ≤ c then A r c else 0

/-- numpy `np.ones((m, n))`. -/
def ones (m n : ℕ) : Mat :=
  fun r c => if r < m ∧ c < n then 1 else 0

/-- `L = np.tril(Ac, -1) + np.eye(A.shape[0])`. -/
def elimL (m : ℕ) (Ac : Mat) : Mat :=
  fun r c => trilm1 m Ac r c + eye m r c

/-- `U = np.triu(Ac)`. -/
def elimU (m : ℕ) (Ac : Mat) : Mat :=
  triu m Ac

/-- `elim_gaussiana(A)` for an array of shape (m, n): if the shape check
`m != n` fails the function prints a message and returns `None` (no
factors); otherwise it runs the elimination nest on the working copy and
returns the triple `(L, U, cant_op)`. -/
def elim_gaussiana (m n : ℕ) (A : Mat) : Option (Mat × Mat × ℕ) :=
  if m ≠ n then none
  else some (elimL m (elimLoop m n A).1, elimU m (elimLoop m n A).1,
    (elimLoop m n A).2)

theorem elim_gaussiana_sq (n : ℕ) (A : Mat) :
    elim_gaussiana n n A =
      some (elimL n (elimLoop n n A).1, elimU n (elimLoop n n A).1,
        (elimLoop n n A).2) := by
  unfold elim_gaussiana
  rw [if_neg (by simp)]

/-- Working matrix and count after the outer iterations for columns
`0, …, i-1` have completed. -/
def stateAfterCol (m n : ℕ) (A : Mat) (i : ℕ) : Mat × ℕ :=
  forRange 0 i (outerI m n) (A, 0)

/-- Working matrix and count within outer column `i`, after the inner
iterations for rows `i+1, …, j-1` have completed. -/
def stateInCol (m n : ℕ) (A : Mat) (i j : ℕ) : Mat × ℕ :=
  forRange (i + 1) j (innerJ n i) (stateAfterCol m n A i)

/-- Formalisation of the hypothesis of the reconstruction claim: at every
moment a diagonal pivot `Ac[i][i]` is actually used (that is, whenever the
current working entry `Ac[j][i]` is nonzero), that pivot is nonzero. -/
def PivotsOK (m n : ℕ) (A : Mat) : Prop :=
  ∀ i < n, ∀ j < m, i < j →
    ((stateInCol m n A i j).1 j i ≠ 0 → (stateInCol m n A i j).1 i i ≠ 0)

instance (m n : ℕ) (A : Mat) : Decidable (PivotsOK m n A) := by
  unfold PivotsOK
  exact inferInstance

/-- Matrix product of two n×n arrays (entry formula of `L @ U`). -/
def matMul (n : ℕ) (P Q : Mat) : Mat :=
  fun r c => ∑ t ∈ Finset.range n, P r t * Q t c

/-- Concrete 2×2 test matrix [[1, 2], [3, 4]]. -/
def A2 : Mat :=
  fun r c => (([[1, 2], [3, 4]] : List (List ℚ)).getD r []).getD c 0

/-- Concrete 2×2 upper-triangular test matrix [[5, 7], [0, 3]]. -/
def AUT2 : Mat :=
  fun r c => (([[5, 7], [0, 3]] : List (List ℚ)).getD r []).getD c 0

/-- Concrete 2×2 test matrix [[0, 1], [1, 0]] whose first pivot is zero at
the moment row 1 needs it. -/
def AZP : Mat :=
  fun r c => (([[0, 1], [1, 0]] : List (List ℚ)).getD r []).getD c 0

/-- C2: for every square input, the returned L is unit-lower-triangular
(diagonal entries 1, entries above the diagonal 0) and the returned U is
upper-triangular (entries below the diagonal 0). -/
theorem c2_triangular_shape (n : ℕ) (A : Mat) (L U : Mat) (cnt : ℕ)
    (heq : elim_gaussiana n n A = some (L, U, cnt)) :
    (∀ i < n, L i i = 1) ∧
      (∀ r c, r < c → c < n → L r c = 0) ∧
      (∀ r c, c < r → r < n → U r c = 0) := by
  rw [elim_gaussiana_sq] at heq
  simp only [Option.some.injEq, Prod.mk.injEq] at heq
  obtain ⟨hL, hU, -⟩ := heq
  subst hL hU
  refine ⟨?_, ?_, ?_⟩
  · intro i hi
    unfold elimL trilm1 eye
    rw [if_neg (by omega), if_pos (by omega)]
    ring
  · intro r c hrc hc
    unfold elimL trilm1 eye
    rw [if_neg (by omega), if_neg (by omega)]
    ring
  · intro r c hcr hr
    unfold elimU triu
    rw [if_neg (by omega)]

/-- C2 witness: the triangularity facts evaluated on the concrete square
matrix `A2`. -/
theorem c2_triangular_shape_witness :
    (∀ i < 2, elimL 2 (elimLoop 2 2 A2).1 i i = 1) ∧
      (∀ r c, r < c → c < 2 → elimL 2 (elimLoop 2 2 A2).1 r c = 0) ∧
      (∀ r c, c < r → r < 2 → elimU 2 (elimLoop 2 2 A2).1 r c = 0) :=
  c2_triangular_shape 2 A2 _ _ _ rfl

/-- C3: for every non-square input (row count different from column count),
`elim_gaussiana` produces no factors: the call returns no result. -/
theorem c3_nonsquare_returns_none (m n : ℕ) (A : Mat) (h : m ≠ n) :
    elim_gaussiana m n A = none := by
  unfold elim_gaussiana
  rw [if_pos h]

/-- C3 witness: a concrete 3×4 input is rejected with no result. -/
theorem c3_nonsquare_returns_none_witness :
    (3 : ℕ) ≠ 4 ∧ elim_gaussiana 3 4 (ones 3 4) = none :=
  ⟨by decide, c3_nonsquare_returns_none 3 4 (ones 3 4) (by decide)⟩

/-- C10: the call always returns: a triple is produced exactly when the
input is square, and `none` exactly when it is not (all loops are bounded,
and the embedding is a total function). -/
theorem c10_total_shape (m n : ℕ) (A : Mat) :
    (elim_gaussiana m n A).isSome ↔ m = n := by
  unfold elim_gaussiana
  by_cases h : m = n
  · rw [if_neg (by simpa using h)]
    simp [h]
  · rw [if_pos h]
    simp [h]

/-- Matrix-only effect of one innermost iteration (the write
`Ac[j][k] = Ac[j][k] - multi * Ac[i][k]`). -/
def kmat (i j : ℕ) (multi : ℚ) (k : ℕ) (M : Mat) : Mat :=
  setEntry M j k (M j k - multi * M i k)

/-- Matrix-only effect of one inner-loop iteration of the claimed counting
rule: the row transformation of the source, with the count kept aside. -/
def rowPass (n i j : ℕ) (M : Mat) : Mat :=
  if M j i ≠ 0 then
    setEntry (forRange (i + 1) n (kmat i j (M j i / M i i)) M) j i (M j i / M i i)
  else M

/-- Counting rule stated by the specification: a row with zero working
entry `Ac[j][i]` is skipped with no count increment; a processed row adds
2 for each inner-loop update of a column `k` in `range(i+1, n)` plus 1 for
the row-pair. -/
def specStepJ (n i : ℕ) (j : ℕ) (st : Mat × ℕ) : Mat × ℕ :=
  (rowPass n i j st.1, st.2 + (if st.1 j i ≠ 0 then 2 * (n - (i + 1)) + 1 else 0))

/-- The claimed counting rule run over the whole elimination trace. -/
def specRun (m n : ℕ) (A : Mat) : Mat × ℕ :=
  forRange 0 n (fun i st => forRange (i + 1) m (specStepJ n i) st) (A, 0)

/-- Total operation count predicted by the claimed counting rule. -/
def specCount (m n : ℕ) (A : Mat) : ℕ :=
  (specRun m n A).2

theorem forRange_updateK (i j : ℕ) (multi : ℚ) (lo hi : ℕ) (st : Mat × ℕ) :
    forRange lo hi (updateK i j multi) st =
      (forRange lo hi (kmat i j multi) st.1, st.2 + 2 * (hi - lo)) := by
  rcases le_or_lt lo hi with hle | hlt
  · induction hi, hle using Nat.le_induction with
    | base =>
      rw [forRange_of_le (updateK i j multi) st (le_refl lo),
        forRange_of_le (kmat i j multi) st.1 (le_refl lo), Nat.sub_self]
      rfl
    | succ m hm ih =>
      rw [forRange_succ_hi (updateK i j multi) st hm,
        forRange_succ_hi (kmat i j multi) st.1 hm, ih]
      unfold updateK kmat
      simp only [Prod.mk.injEq]
      exact ⟨trivial, by omega⟩
  · rw [forRange_of_le (updateK i j multi) st (by omega),
      forRange_of_le (kmat i j multi) st.1 (by omega)]
    have h0 : hi - lo = 0 := by omega
    rw [h0]
    rfl

theorem innerJ_eq_specStepJ (n i j : ℕ) (st : Mat × ℕ) :
    innerJ n i j st = specStepJ n i j st := by
  unfold innerJ specStepJ rowPass
  by_cases h : st.1 j i ≠ 0
  · rw [if_pos h, if_pos h, if_pos h, forRange_updateK]
    simp only [Prod.mk.injEq]
    exact ⟨trivial, by omega⟩
  · rw [if_neg h, if_neg h, if_neg h]
    rfl

theorem elimLoop_eq_specRun (m n : ℕ) (A : Mat) :
    elimLoop m n A = specRun m n A := by
  unfold elimLoop specRun
  apply forRange_congr
  intro i st hi1 hi2
  unfold outerI
  apply forRange_congr
  intro j t hj1 hj2
  exact innerJ_eq_specStepJ n i j t

/-- C5: for every square input, the returned opCount follows exactly the
claimed rule: a row with `Ac[j][i]` exactly zero is skipped with no count
increment, and a processed row adds 2 per inner-loop update of a column
`k` in `range(i+1, n)` plus 1 for the row-pair (`specCount`). -/
theorem c5_opcount_rule (n : ℕ) (A : Mat) :
    Option.map (fun t => t.2.2) (elim_gaussiana n n A) = some (specCount n n A) := by
  rw [elim_gaussiana_sq]
  unfold specCount
  rw [elimLoop_eq_specRun]
  rfl

/-- Two-cell heap for the reference semantics of numpy arrays inside
`elim_gaussiana`: cell `false` holds the array the caller passed as `A`,
cell `true` holds the array allocated by `Ac = A.copy()`. -/
def Store : Type := Bool → Mat

/-- Writing the array referenced by `Ac` (cell `true`); every mutation in
the source targets `Ac`. -/
def writeAc (s : Store) (M : Mat) : Store :=
  fun b => if b then M else s b

/-- One inner-loop iteration at the store level: the body reads and
mutates only the array referenced by `Ac`. -/
def liftJ (n i : ℕ) (j : ℕ) (st : Store × ℕ) : Store × ℕ :=
  (writeAc st.1 (innerJ n i j (st.1 true, st.2)).1, (innerJ n i j (st.1 true, st.2)).2)

/-- `elim_gaussiana` at the store level: `Ac = A.copy()` allocates cell
`true` with the contents of cell `false`, the shape check may return
`None`, and the elimination nest mutates cell `true` only. -/
def elimStore (m n : ℕ) (s : Store) : Store × Option (Mat × Mat × ℕ) :=
  if m ≠ n then (writeAc s (s false), none)
  else
    ((forRange 0 n (fun i st => forRange (i + 1) m (liftJ n i) st)
        (writeAc s (s false), 0)).1,
      some
        (elimL m ((forRange 0 n (fun i st => forRange (i + 1) m (liftJ n i) st)
            (writeAc s (s false), 0)).1 true),
          elimU m ((forRange 0 n (fun i st => forRange (i + 1) m (liftJ n i) st)
            (writeAc s (s false), 0)).1 true),
          (forRange 0 n (fun i st => forRange (i + 1) m (liftJ n i) st)
            (writeAc s (s false), 0)).2))

theorem writeAc_false (s : Store) (M : Mat) : writeAc s M false = s false := by
  unfold writeAc
  rfl

theorem writeAc_true (s : Store) (M : Mat) : writeAc s M true = M := by
  unfold writeAc
  rfl

theorem elimStore_frame (m n : ℕ) (s : Store) :
    (elimStore m n s).1 false = s false := by
  unfold elimStore
  by_cases h : m ≠ n
  · rw [if_pos h]
    exact writeAc_false s (s false)
  · rw [if_neg h]
    have key : ∀ st : Store × ℕ,
        (forRange 0 n (fun i t => forRange (i + 1) m (liftJ n i) t) st).1 false
          = st.1 false := by
      intro st
      apply forRange_preserve (fun t : Store × ℕ => t.1 false = st.1 false)
      · rfl
      · intro i t hi1 hi2 ht
        rw [← ht]
        apply forRange_preserve (fun u : Store × ℕ => u.1 false = t.1 false)
        · rfl
        · intro j u hj1 hj2 hu
          rw [← hu]
          simp [liftJ, writeAc]
    rw [key]
    exact writeAc_false s (s false)

theorem elimStore_proj (m n : ℕ) (st : Store × ℕ) :
    ((forRange 0 n (fun i t => forRange (i + 1) m (liftJ n i) t) st).1 true,
        (forRange 0 n (fun i t => forRange (i + 1) m (liftJ n i) t) st).2) =
      forRange 0 n (outerI m n) (st.1 true, st.2) := by
  refine forRange_hom (fun t : Store × ℕ => (t.1 true, t.2))
      (fun i t => forRange (i + 1) m (liftJ n i) t) (outerI m n) st ?_
  intro i t hi1 hi2
  unfold outerI
  refine forRange_hom (fun u : Store × ℕ => (u.1 true, u.2)) (liftJ n i)
      (innerJ n i) t ?_
  intro j u hj1 hj2
  simp only [liftJ, writeAc_true]

theorem elimStore_result (m n : ℕ) (s : Store) :
    (elimStore m n s).2 = elim_gaussiana m n (s false) := by
  unfold elimStore elim_gaussiana
  by_cases h : m ≠ n
  · rw [if_pos h, if_pos h]
  · rw [if_neg h, if_neg h]
    have key := elimStore_proj m n (writeAc s (s false), 0)
    simp only [writeAc_true] at key
    have h1 : (forRange 0 n (fun i t => forRange (i + 1) m (liftJ n i) t)
        (writeAc s (s false), 0)).1 true = (elimLoop m n (s false)).1 := by
      unfold elimLoop
      rw [← key]
    have h2 : (forRange 0 n (fun i t => forRange (i + 1) m (liftJ n i) t)
        (writeAc s (s false), 0)).2 = (elimLoop m n (s false)).2 := by
      unfold elimLoop
      rw [← key]
    rw [h1, h2]

/-- C4: `elim_gaussiana` never modifies the array the caller passed: the
copy is made at entry, every write targets the copy, and after the call
the cell holding `A` is unchanged. -/
theorem c4_caller_matrix_unchanged (m n : ℕ) (s : Store) :
    (elimStore m n s).1 false = s false :=
  elimStore_frame m n s

/-- C6: running `elim_gaussiana` a second time on the same input (the
caller array left by the first call) yields an identical result: identical
L, identical U, identical operation count. -/
theorem c6_deterministic_rerun (m n : ℕ) (s : Store) :
    (elimStore m n (elimStore m n s).1).2 = (elimStore m n s).2 := by
  rw [elimStore_result, elimStore_result, elimStore_frame]

theorem elimLoop_fixed_of_upper (n : ℕ) (A : Mat)
    (h : ∀ r < n, ∀ c < r, A r c = 0) : elimLoop n n A = (A, 0) := by
  unfold elimLoop
  apply forRange_preserve (fun st : Mat × ℕ => st = (A, 0)) (outerI n n) (A, 0) rfl
  intro i st hi0 hin hst
  rw [hst]
  unfold outerI
  apply forRange_preserve (fun st : Mat × ℕ => st = (A, 0)) (innerJ n i) (A, 0) rfl
  intro j t hj1 hj2 ht
  rw [ht]
  unfold innerJ
  rw [if_neg (fun hne => hne (h j hj2 i (by omega)))]

/-- C9: for a square input that is already upper-triangular (all entries
strictly below the diagonal are zero), the elimination does no work: it
returns L equal to the identity, U equal to the input on every in-bounds
entry, and an operation count of 0. -/
theorem c9_upper_triangular_noop (n : ℕ) (A : Mat)
    (h : ∀ r < n, ∀ c < r, A r c = 0) :
    elim_gaussiana n n A = some (eye n, elimU n A, 0) ∧
      ∀ r < n, ∀ c < n, elimU n A r c = A r c := by
  constructor
  · rw [elim_gaussiana_sq, elimLoop_fixed_of_upper n A h]
    show some (elimL n A, elimU n A, 0) = some (eye n, elimU n A, 0)
    have hLA : elimL n A = eye n := by
      funext r c
      unfold elimL trilm1
      by_cases h1 : r < n ∧ c < n ∧ c < r
      · rw [if_pos h1, h r h1.1 c h1.2.2, zero_add]
      · rw [if_neg h1, zero_add]
    rw [hLA]
  · intro r hr c hc
    unfold elimU triu
    by_cases h1 : r ≤ c
    · rw [if_pos ⟨hr, hc, h1⟩]
    · rw [if_neg (fun h2 => h1 h2.2.2)]
      exact (h r hr c (by omega)).symm

/-- C9 witness: evaluated on the concrete upper-triangular matrix `AUT2`. -/
theorem c9_upper_triangular_noop_witness :
    (∀ r < 2, ∀ c < r, AUT2 r c = 0) ∧
      (elim_gaussiana 2 2 AUT2 = some (eye 2, elimU 2 AUT2, 0) ∧
        ∀ r < 2, ∀ c < 2, elimU 2 AUT2 r c = AUT2 r c) :=
  ⟨by decide, c9_upper_triangular_noop 2 AUT2 (by decide)⟩

/-- C8: a zero pivot used during elimination is neither detected nor
reported: even when some pivot `Ac[i][i]` is zero at the moment a row with
nonzero `Ac[j][i]` needs it (`¬ PivotsOK`), the call performs the
unguarded division and still returns the (poisoned) triple
`(L, U, cant_op)` instead of any designed error. -/
theorem c8_zero_pivot_not_detected (n : ℕ) (A : Mat) (h : ¬ PivotsOK n n A) :
    elim_gaussiana n n A =
      some (elimL n (elimLoop n n A).1, elimU n (elimLoop n n A).1,
        (elimLoop n n A).2) :=
  elim_gaussiana_sq n A

/-- C8 witness: the concrete matrix `AZP` has a zero pivot at the moment
row 1 needs it, and the call still returns a triple. -/
theorem c8_zero_pivot_not_detected_witness :
    ¬ PivotsOK 2 2 AZP ∧
      elim_gaussiana 2 2 AZP =
        some (elimL 2 (elimLoop 2 2 AZP).1, elimU 2 (elimLoop 2 2 AZP).1,
          (elimLoop 2 2 AZP).2) :=
  ⟨by decide, c8_zero_pivot_not_detected 2 AZP (by decide)⟩

/-- Positions of the working matrix already holding a packed multiplier:
all strictly-lower positions in columns before `i`, and in column `i`
those in rows before `j`. -/
def procC (i j r c : ℕ) : Prop :=
  c < r ∧ (c < i ∨ (c = i ∧ r < j))

instance (i j r c : ℕ) : Decidable (procC i j r c) := by
  unfold procC
  exact inferInstance

/-- Unit-lower factor read off a partially processed working matrix. -/
def Lof (i j : ℕ) (Ac : Mat) : Mat :=
  fun r c => (if r = c then 1 else 0) + (if procC i j r c then Ac r c else 0)

/-- Upper factor read off a partially processed working matrix. -/
def Uof (i j : ℕ) (Ac : Mat) : Mat :=
  fun r c => if procC i j r c then 0 else Ac r c

/-- Loop invariant of the elimination: the two factors packed in the
working matrix multiply back to the input on every in-bounds entry. -/
def LUInv (n : ℕ) (A : Mat) (i j : ℕ) (Ac : Mat) : Prop :=
  ∀ r c, r < n → c < n → matMul n (Lof i j Ac) (Uof i j Ac) r c = A r c

theorem procC_init (r c : ℕ) : ¬ procC 0 1 r c := by
  unfold procC
  omega

theorem procC_mono_j (i j r c : ℕ) (h : procC i j r c) : procC i (j + 1) r c := by
  unfold procC at *
  omega

theorem LUInv_init (n : ℕ) (A : Mat) : LUInv n A 0 1 A := by
  intro r c hr hc
  simp only [matMul, Lof, Uof]
  rw [Finset.sum_eq_single_of_mem r (Finset.mem_range.mpr hr)]
  · rw [if_pos rfl, if_neg (procC_init r r), if_neg (procC_init r c)]
    ring
  · intro t ht htr
    rw [if_neg (fun h => htr h.symm), if_neg (procC_init r t)]
    ring

/-- Effect on the working matrix of one processed inner iteration: the
stored multiplier at (j, i) and the row update on columns `i+1, …, n-1`. -/
def elimRow (n i j : ℕ) (multi : ℚ) (Ac : Mat) : Mat :=
  fun r c =>
    if r = j ∧ c = i then multi
    else if r = j ∧ i + 1 ≤ c ∧ c < n then Ac j c - multi * Ac i c
    else Ac r c

theorem kmat_fold_apply (n i j : ℕ) (hij : i < j) (multi : ℚ) (M : Mat) :
    forRange (i + 1) n (kmat i j multi) M = fun r c =>
      if r = j ∧ i + 1 ≤ c ∧ c < n then M j c - multi * M i c else M r c := by
  rcases le_or_lt (i + 1) n with hle | hlt
  · refine forRange_ind
      (fun k X => X = fun r c =>
        if r = j ∧ i + 1 ≤ c ∧ c < k then M j c - multi * M i c else M r c)
      (kmat i j multi) hle M ?_ ?_
    · funext r c
      rw [if_neg (by omega)]
    · intro k X hk1 hk2 hX
      unfold kmat setEntry
      funext r c
      have hXjk : X j k = M j k := by
        simp only [hX]
        rw [if_neg (by omega)]
      have hXik : X i k = M i k := by
        simp only [hX]
        rw [if_neg (by omega)]
      by_cases h1 : r = j ∧ c = k
      · rw [if_pos h1, hXjk, hXik,
          if_pos (show r = j ∧ i + 1 ≤ c ∧ c < k + 1 by omega)]
        rw [h1.2]
      · rw [if_neg h1]
        simp only [hX]
        by_cases h2 : r = j ∧ i + 1 ≤ c ∧ c < k
        · rw [if_pos h2, if_pos (by omega)]
        · rw [if_neg h2, if_neg (by omega)]
  · rw [forRange_of_le (kmat i j multi) M (by omega)]
    funext r c
    rw [if_neg (by omega)]

theorem innerJ_of_eq_zero (n i j : ℕ) (st : Mat × ℕ) (hz : st.1 j i = 0) :
    innerJ n i j st = st := by
  unfold innerJ
  rw [if_neg (fun h => h hz)]

theorem innerJ_fst_of_ne (n i j : ℕ) (hij : i < j) (st : Mat × ℕ)
    (hne : st.1 j i ≠ 0) :
    (innerJ n i j st).1 = elimRow n i j (st.1 j i / st.1 i i) st.1 := by
  unfold innerJ
  rw [if_pos hne]
  show setEntry (forRange (i + 1) n (updateK i j (st.1 j i / st.1 i i)) st).1 j i
      (st.1 j i / st.1 i i) = _
  rw [forRange_updateK]
  show setEntry (forRange (i + 1) n (kmat i j (st.1 j i / st.1 i i)) st.1) j i
      (st.1 j i / st.1 i i) = _
  rw [kmat_fold_apply n i j hij]
  rfl

theorem Lof_diag (i j2 : ℕ) (Ac : Mat) (r : ℕ) : Lof i j2 Ac r r = 1 := by
  simp only [Lof]
  rw [if_pos trivial, if_neg (by unfold procC; omega), add_zero]

theorem Lof_ge_col (i j2 : ℕ) (Ac : Mat) (r g : ℕ) (h1 : i < g) (h2 : r ≠ g) :
    Lof i j2 Ac r g = 0 := by
  simp only [Lof]
  rw [if_neg h2, if_neg (by unfold procC; omega), add_zero]

theorem Lof_ji_zero (i j : ℕ) (Ac : Mat) (hij : i < j) : Lof i j Ac j i = 0 := by
  simp only [Lof]
  rw [if_neg (by omega), if_neg (by unfold procC; omega), add_zero]

theorem Lof_elimRow_ji (n i j : ℕ) (multi : ℚ) (Ac : Mat) (hij : i < j) :
    Lof i (j + 1) (elimRow n i j multi Ac) j i = multi := by
  simp only [Lof, elimRow]
  rw [if_neg (by omega), if_pos (by unfold procC; omega),
    if_pos ⟨trivial, trivial⟩, zero_add]

theorem Lof_elimRow_j (n i j : ℕ) (multi : ℚ) (Ac : Mat) (t : ℕ) (hij : i < j)
    (ht1 : t ≠ i) (ht2 : t ≠ j) :
    Lof i (j + 1) (elimRow n i j multi Ac) j t = Lof i j Ac j t := by
  simp only [Lof, elimRow]
  congr 1
  by_cases h1 : procC i j j t
  · have h3 : t < i := by
      unfold procC at h1
      omega
    rw [if_pos h1, if_pos (procC_mono_j i j j t h1), if_neg (by omega),
      if_neg (by omega)]
  · have h2 : ¬ procC i (j + 1) j t := by
      unfold procC at *
      omega
    rw [if_neg h1, if_neg h2]

theorem Lof_elimRow_ne (n i j : ℕ) (multi : ℚ) (Ac : Mat) (r t : ℕ)
    (hr : r ≠ j) :
    Lof i (j + 1) (elimRow n i j multi Ac) r t = Lof i j Ac r t := by
  simp only [Lof, elimRow]
  congr 1
  have h2 : procC i (j + 1) r t ↔ procC i j r t := by
    unfold procC
    omega
  by_cases h1 : procC i j r t
  · rw [if_pos h1, if_pos (h2.mpr h1), if_neg (by omega), if_neg (by omega)]
  · rw [if_neg h1, if_neg (fun h3 => h1 (h2.mp h3))]

theorem Uof_elimRow_ne (n i j : ℕ) (multi : ℚ) (Ac : Mat) (t c : ℕ)
    (ht : t ≠ j) :
    Uof i (j + 1) (elimRow n i j multi Ac) t c = Uof i j Ac t c := by
  simp only [Uof, elimRow]
  have h2 : procC i (j + 1) t c ↔ procC i j t c := by
    unfold procC
    omega
  by_cases h1 : procC i j t c
  · rw [if_pos h1, if_pos (h2.mpr h1)]
  · rw [if_neg h1, if_neg (fun h3 => h1 (h2.mp h3)), if_neg (by omega),
      if_neg (by omega)]

theorem Uof_key_col (n i j : ℕ) (multi : ℚ) (Ac : Mat) (c : ℕ) (hij : i < j)
    (hc : c < n) (hcancel : multi * Ac i i = Ac j i) :
    multi * Uof i j Ac i c + Uof i (j + 1) (elimRow n i j multi Ac) j c
      = Uof i j Ac j c := by
  rcases lt_trichotomy c i with h1 | h1 | h1
  · have e1 : Uof i j Ac i c = 0 := by
      simp only [Uof]
      rw [if_pos (by unfold procC; omega)]
    have e2 : Uof i (j + 1) (elimRow n i j multi Ac) j c = 0 := by
      simp only [Uof]
      rw [if_pos (by unfold procC; omega)]
    have e3 : Uof i j Ac j c = 0 := by
      simp only [Uof]
      rw [if_pos (by unfold procC; omega)]
    rw [e1, e2, e3]
    ring
  · have e1 : Uof i j Ac i c = Ac i i := by
      simp only [Uof]
      rw [if_neg (by unfold procC; omega), h1]
    have e2 : Uof i (j + 1) (elimRow n i j multi Ac) j c = 0 := by
      simp only [Uof]
      rw [if_pos (by unfold procC; omega)]
    have e3 : Uof i j Ac j c = Ac j i := by
      simp only [Uof]
      rw [if_neg (by unfold procC; omega), h1]
    rw [e1, e2, e3, add_zero]
    exact hcancel
  · have e1 : Uof i j Ac i c = Ac i c := by
      simp only [Uof]
      rw [if_neg (by unfold procC; omega)]
    have e2 : Uof i (j + 1) (elimRow n i j multi Ac) j c
        = Ac j c - multi * Ac i c := by
      simp only [Uof, elimRow, true_and]
      rw [if_neg (by unfold procC; omega), if_neg (by omega),
        if_pos (by omega)]
    have e3 : Uof i j Ac j c = Ac j c := by
      simp only [Uof]
      rw [if_neg (by unfold procC; omega)]
    rw [e1, e2, e3]
    ring

theorem LUInv_step (n : ℕ) (A : Mat) (i j : ℕ) (hi : i < n) (hj : j < n)
    (hij : i < j) (st : Mat × ℕ)
    (hpiv : st.1 j i ≠ 0 → st.1 i i ≠ 0) (hInv : LUInv n A i j st.1) :
    LUInv n A i (j + 1) (innerJ n i j st).1 := by
  by_cases hz : st.1 j i = 0
  · rw [innerJ_of_eq_zero n i j st hz]
    intro r c hr hc
    rw [← hInv r c hr hc]
    simp only [matMul]
    apply Finset.sum_congr rfl
    intro t ht
    have hLe : Lof i (j + 1) st.1 r t = Lof i j st.1 r t := by
      simp only [Lof]
      congr 1
      by_cases h1 : procC i j r t
      · rw [if_pos h1, if_pos (procC_mono_j i j r t h1)]
      · by_cases h2 : procC i (j + 1) r t
        · have hrt : r = j ∧ t = i := by
            unfold procC at h1 h2
            omega
          rw [if_pos h2, if_neg h1, hrt.1, hrt.2, hz]
        · rw [if_neg h2, if_neg h1]
    have hUe : Uof i (j + 1) st.1 t c = Uof i j st.1 t c := by
      simp only [Uof]
      by_cases h1 : procC i j t c
      · rw [if_pos h1, if_pos (procC_mono_j i j t c h1)]
      · by_cases h2 : procC i (j + 1) t c
        · have htc : t = j ∧ c = i := by
            unfold procC at h1 h2
            omega
          rw [if_pos h2, if_neg h1, htc.1, htc.2, hz]
        · rw [if_neg h2, if_neg h1]
    rw [hLe, hUe]
  · have hpiv2 : st.1 i i ≠ 0 := hpiv hz
    have hcancel : st.1 j i / st.1 i i * st.1 i i = st.1 j i :=
      div_mul_cancel₀ (st.1 j i) hpiv2
    rw [innerJ_fst_of_ne n i j hij st hz]
    intro r c hr hc
    rw [← hInv r c hr hc]
    simp only [matMul]
    by_cases hrj : r = j
    · subst hrj
      have hin : i ∈ Finset.range n := Finset.mem_range.mpr hi
      have hjn : r ∈ (Finset.range n).erase i :=
        Finset.mem_erase.mpr ⟨by omega, Finset.mem_range.mpr hr⟩
      rw [← Finset.sum_erase_add (Finset.range n) _ hin,
        ← Finset.sum_erase_add ((Finset.range n).erase i) _ hjn,
        ← Finset.sum_erase_add (Finset.range n) _ hin,
        ← Finset.sum_erase_add ((Finset.range n).erase i) _ hjn]
      have hrest : ∀ t ∈ ((Finset.range n).erase i).erase r,
          Lof i (r + 1) (elimRow n i r (st.1 r i / st.1 i i) st.1) r t *
              Uof i (r + 1) (elimRow n i r (st.1 r i / st.1 i i) st.1) t c
            = Lof i r st.1 r t * Uof i r st.1 t c := by
        intro t ht
        rw [Finset.mem_erase, Finset.mem_erase] at ht
        rw [Lof_elimRow_j n i r _ st.1 t hij ht.2.1 ht.1,
          Uof_elimRow_ne n i r _ st.1 t c ht.1]
      rw [Finset.sum_congr rfl hrest]
      rw [Lof_diag, Lof_diag, Lof_elimRow_ji n i r _ st.1 hij,
        Lof_ji_zero i r st.1 hij,
        Uof_elimRow_ne n i r _ st.1 i c (by omega)]
      have hkey := Uof_key_col n i r (st.1 r i / st.1 i i) st.1 c hij hc hcancel
      linear_combination hkey
    · apply Finset.sum_congr rfl
      intro t ht
      by_cases htj : t = j
      · rw [htj,
          Lof_ge_col i (j + 1) (elimRow n i j (st.1 j i / st.1 i i) st.1) r j
            hij hrj,
          Lof_ge_col i j st.1 r j hij hrj, zero_mul, zero_mul]
      · rw [Lof_elimRow_ne n i j _ st.1 r t hrj,
          Uof_elimRow_ne n i j _ st.1 t c htj]

theorem procC_shift (i n2 r c : ℕ) (hr : r < n2) :
    procC i n2 r c ↔ procC (i + 1) (i + 2) r c := by
  unfold procC
  omega

theorem LUInv_shift (n : ℕ) (A : Mat) (i : ℕ) (Ac : Mat)
    (h : LUInv n A i n Ac) : LUInv n A (i + 1) (i + 2) Ac := by
  intro r c hr hc
  rw [← h r c hr hc]
  simp only [matMul]
  apply Finset.sum_congr rfl
  intro t ht
  rw [Finset.mem_range] at ht
  have e1 : Lof (i + 1) (i + 2) Ac r t = Lof i n Ac r t := by
    simp only [Lof]
    congr 1
    exact if_congr ((procC_shift i n r t hr).symm) rfl rfl
  have e2 : Uof (i + 1) (i + 2) Ac t c = Uof i n Ac t c := by
    simp only [Uof]
    exact if_congr ((procC_shift i n t c ht).symm) rfl rfl
  rw [e1, e2]

theorem stateInCol_base (m n : ℕ) (A : Mat) (i : ℕ) :
    stateInCol m n A i (i + 1) = stateAfterCol m n A i := by
  unfold stateInCol
  exact forRange_of_le _ _ (le_refl (i + 1))

theorem stateInCol_succ (m n : ℕ) (A : Mat) (i j : ℕ) (h : i + 1 ≤ j) :
    stateInCol m n A i (j + 1) = innerJ n i j (stateInCol m n A i j) := by
  unfold stateInCol
  exact forRange_succ_hi _ _ h

theorem stateAfterCol_succ (m n : ℕ) (A : Mat) (i : ℕ) :
    stateAfterCol m n A (i + 1) = stateInCol m n A i m := by
  show forRange 0 (i + 1) (outerI m n) (A, 0) = stateInCol m n A i m
  rw [forRange_succ_hi (outerI m n) (A, 0) (Nat.zero_le i)]
  rfl

theorem LUInv_stateAfterCol (n : ℕ) (A : Mat) (hOK : PivotsOK n n A) :
    ∀ i ≤ n, LUInv n A i (i + 1) (stateAfterCol n n A i).1 := by
  intro i
  induction i with
  | zero =>
    intro h0
    have he : stateAfterCol n n A 0 = (A, 0) := forRange_of_le _ _ (le_refl 0)
    rw [he]
    exact LUInv_init n A
  | succ i ih =>
    intro hin
    have hi : i < n := by omega
    have inner : ∀ j, i + 1 ≤ j → j ≤ n →
        LUInv n A i j (stateInCol n n A i j).1 := by
      intro j hj1
      induction j, hj1 using Nat.le_induction with
      | base =>
        intro hb
        rw [stateInCol_base]
        exact ih (by omega)
      | succ j hj ihj =>
        intro hjn
        rw [stateInCol_succ n n A i j hj]
        exact LUInv_step n A i j hi (by omega) (by omega) (stateInCol n n A i j)
          (hOK i hi j (by omega) (by omega)) (ihj (by omega))
    have hfin := inner n (by omega) (le_refl n)
    rw [← stateAfterCol_succ n n A i] at hfin
    exact LUInv_shift n A i _ hfin

/-- C1: for every square matrix whose diagonal pivots are all nonzero at
the moment they are used during elimination, the returned L and U satisfy
L times U equals the (copy of the) input matrix on every in-bounds entry,
as an exact algebraic identity. -/
theorem c1_lu_reconstruction (n : ℕ) (A : Mat) (hOK : PivotsOK n n A)
    (L U : Mat) (cnt : ℕ) (heq : elim_gaussiana n n A = some (L, U, cnt)) :
    ∀ r < n, ∀ c < n, matMul n L U r c = A r c := by
  rw [elim_gaussiana_sq] at heq
  simp only [Option.some.injEq, Prod.mk.injEq] at heq
  obtain ⟨hL, hU, -⟩ := heq
  subst hL hU
  intro r hr c hc
  have hfin : LUInv n A n (n + 1) (stateAfterCol n n A n).1 :=
    LUInv_stateAfterCol n A hOK n (le_refl n)
  have hstate : (elimLoop n n A).1 = (stateAfterCol n n A n).1 := rfl
  rw [hstate, ← hfin r c hr hc]
  simp only [matMul]
  apply Finset.sum_congr rfl
  intro t ht
  rw [Finset.mem_range] at ht
  have e1 : elimL n (stateAfterCol n n A n).1 r t
      = Lof n (n + 1) (stateAfterCol n n A n).1 r t := by
    generalize (stateAfterCol n n A n).1 = M
    simp only [elimL, trilm1, eye, Lof]
    have hp : procC n (n + 1) r t ↔ t < r := by
      unfold procC
      omega
    by_cases h1 : t < r
    · rw [if_pos ⟨hr, ht, h1⟩, if_pos (hp.mpr h1), if_neg (by omega),
        if_neg (by omega)]
      ring
    · rw [if_neg (by omega), if_neg (fun hh => h1 (hp.mp hh))]
      by_cases h2 : r = t
      · rw [if_pos ⟨h2, hr⟩, if_pos h2]
        ring
      · rw [if_neg (by omega), if_neg h2]
  have e2 : elimU n (stateAfterCol n n A n).1 t c
      = Uof n (n + 1) (stateAfterCol n n A n).1 t c := by
    generalize (stateAfterCol n n A n).1 = M
    simp only [elimU, triu, Uof]
    have hp : procC n (n + 1) t c ↔ c < t := by
      unfold procC
      omega
    by_cases h1 : c < t
    · rw [if_neg (by omega), if_pos (hp.mpr h1)]
    · rw [if_pos ⟨ht, hc, by omega⟩, if_neg (fun hh => h1 (hp.mp hh))]
  rw [e1, e2]

/-- C1 witness: the reconstruction evaluated on the concrete square matrix
`A2`, whose pivots are nonzero throughout elimination. -/
theorem c1_lu_reconstruction_witness :
    PivotsOK 2 2 A2 ∧
      ∀ r < 2, ∀ c < 2,
        matMul 2 (elimL 2 (elimLoop 2 2 A2).1) (elimU 2 (elimLoop 2 2 A2).1)
            r c = A2 r c :=
  ⟨by decide, c1_lu_reconstruction 2 A2 (by decide) _ _ _ rfl⟩

/-- The demonstration matrix of `main()`: `np.eye(7)` minus the strictly
lower all-ones triangle, with column 6 then overwritten by all 1s
(`B[:n, n-1] = 1`). -/
def B7 : Mat :=
  fun r c => if r < 7 ∧ c = 6 then 1 else eye 7 r c - trilm1 7 (ones 7 7) r c

/-- Infinity norm printed by the driver:
`np.max(np.sum(np.abs(U), axis=1))`. -/
def normInfU (n : ℕ) (U : Mat) : ℚ :=
  ((List.range n).map (fun r => ∑ c ∈ Finset.range n, |U r c|)).foldr max 0

set_option maxRecDepth 8000 in
set_option maxHeartbeats 4000000 in
/-- C7: on the concrete 7×7 driver matrix `B7`, elimination completes with
no zero pivot encountered and returns a triple, the product L×U
reconstructs `B7` on every in-bounds entry, and the infinity norm of U is
the specific finite positive number 64. -/
theorem c7_demo_matrix :
    PivotsOK 7 7 B7 ∧
      elim_gaussiana 7 7 B7 =
        some (elimL 7 (elimLoop 7 7 B7).1, elimU 7 (elimLoop 7 7 B7).1,
          (elimLoop 7 7 B7).2) ∧
      (∀ r < 7, ∀ c < 7,
        matMul 7 (elimL 7 (elimLoop 7 7 B7).1) (elimU 7 (elimLoop 7 7 B7).1)
            r c = B7 r c) ∧
      normInfU 7 (elimU 7 (elimLoop 7 7 B7).1) = 64 ∧
      0 < normInfU 7 (elimU 7 (elimLoop 7 7 B7).1) :=
  ⟨by with_unfolding_all decide, elim_gaussiana_sq 7 B7,
    by with_unfolding_all decide, by with_unfolding_all decide,
    by with_unfolding_all decide⟩
